import Mathlib

/-!
Verification of the mesh codec in `src/mesh.h` of webgl-loader.

The development shallowly embeds the codec: machine integers become `Nat`
or `Int` with explicit reduction modulo 2^16 where the C code relies on
fixed-width arithmetic, float values used by the bounds computations become
an explicit three-case type (negative infinity, finite rational, positive
infinity), and code that can hit a fatal `CHECK` is modelled as returning
`Option` (with `none` for the aborted run, which writes no output).

The variable-length byte encoder `Uint16ToUtf8` lives in `utf8.h`, which is
not part of the sources under verification; per the specification it is an
external collaborator that encodes any 16-bit value and never fails, so the
compressors here are modelled at the level of the 16-bit words handed to
that encoder, in emission order.
-/

namespace WL

/-- Reduction of an integer to an unsigned 16-bit value, as in a C cast to
`uint16`. -/
def toUint16 (n : Int) : Nat := (n % 65536).toNat

/-- Reinterpretation of an integer as a signed 16-bit value, as in a C cast
to `int16`. -/
def toInt16 (n : Int) : Int :=
  if n % 65536 < 32768 then n % 65536 else n % 65536 - 65536

/-- Embedding of `ZigZag` from `src/mesh.h`:
`uint16 ZigZag(int16 word) ... return (word >> 15) ^ (word << 1);`.
For a 16-bit signed `word`, the arithmetic shift `word >> 15` is `-1` when
`word < 0` and `0` otherwise; xor with all-ones is bitwise negation, which
in two-complement arithmetic, so the returned value is `-(2 * word) - 1` for negative
words and `2 * word` otherwise, reduced to `uint16` by the return type. -/
def ZigZag (word : Int) : Nat :=
  toUint16 (if word < 0 then -(2 * word) - 1 else 2 * word)

/-- Modelled from the spec: the decoder-side inverse of the zigzag mapping
is not part of `src/` (only the JavaScript decoder uses it); section 8 of
the spec states `unzigzag(zigzag(d)) = d`, so `UnZigZag` is defined as the
inverse of the documented mapping: even codes come from non-negative
deltas, odd codes from negative ones. -/
def UnZigZag (n : Nat) : Int :=
  if n % 2 = 0 then ((n / 2 : Nat) : Int) else -(((n + 1) / 2 : Nat) : Int)

/-- One update of the high-water mark of `CompressIndicesToUtf8`: the
`uint16` counter `index_high_water_mark` is incremented (with 16-bit
wraparound) exactly when the index read equals it. -/
def hwmStep (h : Nat) (i : Int) : Nat :=
  if i = (h : Int) then (h + 1) % 65536 else h

/-- Loop of `CompressIndicesToUtf8` from `src/mesh.h`, with the running
high-water mark as an explicit argument.  Each element must pass
`CHECK(index >= 0)` and `CHECK(index <= index_high_water_mark)`; a failed
`CHECK` aborts the process, modelled as `none`.  A passing element emits
the 16-bit word `index_high_water_mark - index`. -/
def compressIndicesGo (h : Nat) : List Int → Option (List Nat)
  | [] => some []
  | i :: rest =>
    if 0 ≤ i then
      if i ≤ (h : Int) then
        match compressIndicesGo (hwmStep h i) rest with
        | some ds => some (((h : Int) - i).toNat :: ds)
        | none => none
      else none
    else none

/-- Embedding of `CompressIndicesToUtf8` from `src/mesh.h`: the high-water
mark starts at 0 and the words handed to `Uint16ToUtf8` are collected in
emission order. -/
def CompressIndicesToUtf8 (list : List Int) : Option (List Nat) :=
  compressIndicesGo 0 list

/-- Decidable form of the high-water-mark invariant of the spec (section 3):
scanning left to right, every element is a non-negative index that does not
exceed the running high-water mark at the time it is read.  Flat indices
are non-negative by the data model of section 3. -/
def validIdx (h : Nat) : List Int → Bool
  | [] => true
  | i :: rest => decide (0 ≤ i) && decide (i ≤ (h : Int)) && validIdx (hwmStep h i) rest

/-- Delta sequence described by the spec for the index compressor (section
4.6): for each index emit `high_water_mark - i`, incrementing the mark
exactly when `i` equals it. -/
def specDeltas (h : Nat) : List Int → List Nat
  | [] => []
  | i :: rest => ((h : Int) - i).toNat :: specDeltas (hwmStep h i) rest

/-- High-water mark after scanning a list. -/
def hwmAfter (h : Nat) (l : List Int) : Nat := l.foldl hwmStep h

theorem compressGo_valid (l : List Int) :
    ∀ h, validIdx h l = true → compressIndicesGo h l = some (specDeltas h l) := by
  induction l with
  | nil => intro h _; rfl
  | cons i rest ih =>
    intro h hv
    simp only [validIdx, Bool.and_eq_true, decide_eq_true_eq] at hv
    obtain ⟨⟨h0, hle⟩, hrest⟩ := hv
    simp only [compressIndicesGo, if_pos h0, if_pos hle, ih (hwmStep h i) hrest,
      specDeltas]

theorem compressGo_invalid (l : List Int) :
    ∀ h, validIdx h l = false → compressIndicesGo h l = none := by
  induction l with
  | nil => intro h hv; simp [validIdx] at hv
  | cons i rest ih =>
    intro h hv
    simp only [validIdx, Bool.and_eq_false_iff, decide_eq_false_iff_not, not_le] at hv
    by_cases h0 : 0 ≤ i
    · by_cases hle : i ≤ (h : Int)
      · have hrest : validIdx (hwmStep h i) rest = false := by
          rcases hv with (hv | hv) | hv
          · exact absurd h0 (not_le.mpr hv)
          · exact absurd hle (not_le.mpr hv)
          · exact hv
        simp only [compressIndicesGo, if_pos h0, if_pos hle, ih (hwmStep h i) hrest]
      · simp only [compressIndicesGo, if_pos h0, if_neg hle]
    · simp only [compressIndicesGo, if_neg h0]

/-- C2: the index compressor starts with a zero high-water mark, requires
each index `i` to satisfy `i ≤ high_water_mark` (hard failure otherwise),
emits the word `high_water_mark - i`, and increments the mark exactly when
`i` equals it; on every input satisfying the high-water-mark invariant the
emitted delta sequence is exactly the one described by the spec, and on
every input violating it the run hard-fails with no output. -/
theorem compress_indices_spec (l : List Int) :
    (validIdx 0 l = true → CompressIndicesToUtf8 l = some (specDeltas 0 l))
    ∧ (validIdx 0 l = false → CompressIndicesToUtf8 l = none) :=
  ⟨fun hv => compressGo_valid l 0 hv, fun hv => compressGo_invalid l 0 hv⟩

/-- Witness for C2 at the concrete list `[0, 0, 1, 2, 2, 1]` (valid) and at
`[1]` (invalid). -/
theorem compress_indices_spec_witness :
    (validIdx 0 [0, 0, 1, 2, 2, 1] = true
      ∧ CompressIndicesToUtf8 [0, 0, 1, 2, 2, 1] = some (specDeltas 0 [0, 0, 1, 2, 2, 1]))
    ∧ (validIdx 0 [1] = false ∧ CompressIndicesToUtf8 [1] = none) :=
  ⟨⟨by decide, (compress_indices_spec [0, 0, 1, 2, 2, 1]).1 (by decide)⟩,
   ⟨by decide, (compress_indices_spec [1]).2 (by decide)⟩⟩

/-- C3 counterexample: on input `[0, 0, 1, 2, 2, 1]` the code does not
produce the delta sequence `[0, 0, 0, 0, 1, 2]` claimed by the spec.  After
the first index 0 the high-water mark is already 1, so the second index 0
emits delta 1, not 0. -/
theorem index_compressor_example_cex :
    CompressIndicesToUtf8 [0, 0, 1, 2, 2, 1] ≠ some [0, 0, 0, 0, 1, 2] := by
  decide

theorem compressGo_zero_blocked (pre : List Int) (h0 : (0 : Int) ∉ pre) :
    ∀ suf, compressIndicesGo 0 (pre ++ 2 :: suf) = none := by
  induction pre with
  | nil =>
    intro suf
    simp [compressIndicesGo]
  | cons i rest ih =>
    intro suf
    have hi : i ≠ 0 := fun h => h0 (by simp [h])
    have hrest : (0 : Int) ∉ rest := fun h => h0 (List.mem_cons_of_mem _ h)
    by_cases hpos : 0 ≤ i
    · have : ¬ i ≤ ((0 : Nat) : Int) := by
        intro hle
        exact hi (le_antisymm (by exact_mod_cast hle) hpos)
      simp only [List.cons_append, compressIndicesGo, if_pos hpos, if_neg this]
    · simp only [List.cons_append, compressIndicesGo, if_neg hpos]

/-- C3 amended: on input `[0, 0, 1, 2, 2, 1]` the delta sequence before
varint encoding is `[0, 1, 0, 0, 1, 2]` (the spec example `[0,0,0,0,1,2]`
is wrong at the second element), and any list in which a 2 appears before
any 0 or 1 has been introduced is rejected. -/
theorem index_compressor_example_amended :
    CompressIndicesToUtf8 [0, 0, 1, 2, 2, 1] = some [0, 1, 0, 0, 1, 2]
    ∧ ∀ (pre : List Int) (suf : List Int), (0 : Int) ∉ pre → (1 : Int) ∉ pre →
        CompressIndicesToUtf8 (pre ++ 2 :: suf) = none := by
  refine ⟨by decide, fun pre suf h0 _ => ?_⟩
  exact compressGo_zero_blocked pre h0 suf

/-- Witness for C3 amended at `pre = []`, `suf = []`. -/
theorem index_compressor_example_amended_witness :
    CompressIndicesToUtf8 ([] ++ 2 :: []) = none :=
  index_compressor_example_amended.2 [] [] (by decide) (by decide)

theorem compressGo_neg_none (l : List Int) :
    ∀ h, (∃ x ∈ l, x < 0) → compressIndicesGo h l = none := by
  induction l with
  | nil => intro h hx; simp at hx
  | cons i rest ih =>
    intro h hx
    by_cases hpos : 0 ≤ i
    · have hxr : ∃ x ∈ rest, x < 0 := by
        obtain ⟨x, hmem, hneg⟩ := hx
        rcases List.mem_cons.mp hmem with rfl | hmem
        · exact absurd hpos (not_le.mpr hneg)
        · exact ⟨x, hmem, hneg⟩
      by_cases hle : i ≤ (h : Int)
      · simp only [compressIndicesGo, if_pos hpos, if_pos hle, ih (hwmStep h i) hxr]
      · simp only [compressIndicesGo, if_pos hpos, if_neg hle]
    · simp only [compressIndicesGo, if_neg hpos]

theorem compressGo_append_valid (pre : List Int) :
    ∀ h rest, validIdx h pre = true →
      compressIndicesGo h (pre ++ rest)
        = Option.map (fun ds => specDeltas h pre ++ ds)
            (compressIndicesGo (hwmAfter h pre) rest) := by
  induction pre with
  | nil =>
    intro h rest _
    simp only [List.nil_append, hwmAfter, List.foldl_nil, specDeltas]
    cases compressIndicesGo h rest <;> simp
  | cons i pre ih =>
    intro h rest hv
    simp only [validIdx, Bool.and_eq_true, decide_eq_true_eq] at hv
    obtain ⟨⟨h0, hle⟩, hv⟩ := hv
    have key := ih (hwmStep h i) rest hv
    have hAfter : hwmAfter h (i :: pre) = hwmAfter (hwmStep h i) pre := by
      simp [hwmAfter]
    rw [hAfter]
    cases hres : compressIndicesGo (hwmAfter (hwmStep h i) pre) rest with
    | none =>
      rw [hres, Option.map_none'] at key
      have key2 : compressIndicesGo (hwmStep h i) (pre.append rest) = none := key
      simp only [List.cons_append, compressIndicesGo, if_pos h0, if_pos hle, key2, hres,
        Option.map_none']
    | some ds =>
      rw [hres, Option.map_some'] at key
      have key2 : compressIndicesGo (hwmStep h i) (pre.append rest)
          = some (specDeltas (hwmStep h i) pre ++ ds) := key
      simp only [List.cons_append, compressIndicesGo, if_pos h0, if_pos hle, key2, hres,
        Option.map_some', specDeltas, List.cons_append]

/-- C10: the index compressor hard-fails on any negative input index.  A
list containing a negative value never succeeds; more precisely, after any
valid prefix a negative element fails immediately (for every suffix), even
though the value satisfies the high-water-mark comparison, since the
high-water mark is a non-negative counter. -/
theorem negative_index_rejected :
    (∀ l : List Int, (∃ x ∈ l, x < 0) → CompressIndicesToUtf8 l = none)
    ∧ (∀ (pre : List Int) (x : Int) (suf : List Int),
        validIdx 0 pre = true → x < 0 →
          compressIndicesGo (hwmAfter 0 pre) (x :: suf) = none
          ∧ CompressIndicesToUtf8 (pre ++ x :: suf) = none
          ∧ x ≤ ((hwmAfter 0 pre : Nat) : Int)) := by
  constructor
  · intro l hx
    exact compressGo_neg_none l 0 hx
  · intro pre x suf hv hx
    have hstop : compressIndicesGo (hwmAfter 0 pre) (x :: suf) = none := by
      have : ¬ 0 ≤ x := not_le.mpr hx
      simp only [compressIndicesGo, if_neg this]
    refine ⟨hstop, ?_, ?_⟩
    · unfold CompressIndicesToUtf8
      rw [compressGo_append_valid pre 0 (x :: suf) hv, hstop, Option.map_none']
    · exact le_trans (le_of_lt hx) (Int.ofNat_nonneg _)

/-- Witness for C10 at `pre = [0]`, `x = -1`, `suf = []`. -/
theorem negative_index_rejected_witness :
    CompressIndicesToUtf8 ([0] ++ (-1) :: []) = none :=
  (negative_index_rejected.2 [0] (-1) [] (by decide) (by decide)).2.1

/-- C7: the zigzag mapping sends 0, -1, 1, -2 to 0, 1, 2, 3, and on the
16-bit signed range it is a bijection onto the 16-bit unsigned range, with
`UnZigZag` as its two-sided inverse. -/
theorem zigzag_bijection :
    ZigZag 0 = 0 ∧ ZigZag (-1) = 1 ∧ ZigZag 1 = 2 ∧ ZigZag (-2) = 3
    ∧ (∀ d : Int, -32768 ≤ d → d ≤ 32767 →
        ZigZag d < 65536 ∧ UnZigZag (ZigZag d) = d)
    ∧ (∀ n : Nat, n < 65536 →
        -32768 ≤ UnZigZag n ∧ UnZigZag n ≤ 32767 ∧ ZigZag (UnZigZag n) = n) := by
  refine ⟨by decide, by decide, by decide, by decide, ?_, ?_⟩
  · intro d hlo hhi
    simp only [ZigZag, UnZigZag, toUint16]
    split_ifs <;> omega
  · intro n hn
    simp only [ZigZag, UnZigZag, toUint16]
    split_ifs <;> omega

/-- Witness for C7 at `d = -5` and `n = 9`. -/
theorem zigzag_bijection_witness :
    UnZigZag (ZigZag (-5)) = -5 ∧ ZigZag (UnZigZag 9) = 9 :=
  ⟨(zigzag_bijection.2.2.2.2.1 (-5) (by decide) (by decide)).2,
   (zigzag_bijection.2.2.2.2.2 9 (by decide)).2.2⟩

/-- Inner loop of `CompressQuantizedAttribsToUtf8` from `src/mesh.h` for one
channel: starting at position `j` and stepping by the stride 8, each value
`word` emits `ZigZag(static_cast<int16>(word - prev))` and becomes the new
`prev`.  The subtraction of the two `uint16` values happens in `int` and is
reduced to 16 bits by the `int16` cast. -/
def channelLoop (attribs : List Nat) (prev j : Nat) : List Nat :=
  if h : j < attribs.length then
    ZigZag (toInt16 ((attribs[j] : Int) - (prev : Int)))
      :: channelLoop attribs attribs[j] (j + 8)
  else []
termination_by attribs.length - j

/-- Embedding of `CompressQuantizedAttribsToUtf8` from `src/mesh.h`: the
outer loop runs the per-channel delta loop for the 8 start offsets 0..7 in
order, each starting from `prev = 0`. -/
def CompressQuantizedAttribsToUtf8 (attribs : List Nat) : List Nat :=
  channelLoop attribs 0 0 ++ channelLoop attribs 0 1 ++ channelLoop attribs 0 2
    ++ channelLoop attribs 0 3 ++ channelLoop attribs 0 4 ++ channelLoop attribs 0 5
    ++ channelLoop attribs 0 6 ++ channelLoop attribs 0 7

/-- Every 8th element of a list, starting with its head: the values of one
channel of the transposed traversal described by the spec. -/
def every8th : List Nat → List Nat
  | [] => []
  | v :: rest => v :: every8th (rest.drop 7)
termination_by l => l.length
decreasing_by simp [List.length_drop]; omega

/-- Zigzag mapping as worded in the spec (section 4.7): `2n` for `n ≥ 0`
and `2 |n| - 1` for `n < 0`, as a 16-bit unsigned code. -/
def zigzagSpec (n : Int) : Nat :=
  if 0 ≤ n then toUint16 (2 * n) else toUint16 (2 * (n.natAbs : Int) - 1)

/-- Per-channel delta chain as worded in the spec (section 4.7): `previous`
starts at 0; each value `v` emits `zigzag(v - previous)` with the
subtraction performed in wraparound 16-bit arithmetic, then `previous`
becomes `v`. -/
def deltaZigSpec (prev : Nat) : List Nat → List Nat
  | [] => []
  | v :: rest => zigzagSpec (toInt16 ((v : Int) - (prev : Int))) :: deltaZigSpec v rest

theorem zigzag_eq_spec (w : Int) : ZigZag w = zigzagSpec w := by
  simp only [ZigZag, zigzagSpec]
  split_ifs with h1 h2 h2
  · omega
  · congr 1
    omega
  · rfl
  · omega

theorem channelLoop_eq_spec (attribs : List Nat) :
    ∀ n j prev, attribs.length - j ≤ n →
      channelLoop attribs prev j = deltaZigSpec prev (every8th (attribs.drop j)) := by
  intro n
  induction n with
  | zero =>
    intro j prev hj
    have hge : attribs.length ≤ j := by omega
    rw [channelLoop, dif_neg (by omega), List.drop_eq_nil_of_le hge, every8th, deltaZigSpec]
  | succ n ih =>
    intro j prev hj
    by_cases h : j < attribs.length
    · rw [channelLoop, dif_pos h, List.drop_eq_getElem_cons h, every8th, List.drop_drop,
        deltaZigSpec, zigzag_eq_spec]
      congr 1
      have h78 : j + 1 + 7 = j + 8 := by omega
      rw [h78]
      exact ih (j + 8) attribs[j] (by omega)
    · rw [channelLoop, dif_neg h, List.drop_eq_nil_of_le (by omega), every8th, deltaZigSpec]

/-- C4: the attribute compressor processes the 8 channels independently in
transposed order (all values of channel 0 across every vertex, then channel
1, and so on); within each channel `previous` starts at 0 and each value
`v` emits `zigzag(v - previous)` with wraparound 16-bit subtraction, then
`previous` becomes `v`. -/
theorem compress_attribs_transposed (attribs : List Nat) :
    CompressQuantizedAttribsToUtf8 attribs
      = deltaZigSpec 0 (every8th (attribs.drop 0))
        ++ deltaZigSpec 0 (every8th (attribs.drop 1))
        ++ deltaZigSpec 0 (every8th (attribs.drop 2))
        ++ deltaZigSpec 0 (every8th (attribs.drop 3))
        ++ deltaZigSpec 0 (every8th (attribs.drop 4))
        ++ deltaZigSpec 0 (every8th (attribs.drop 5))
        ++ deltaZigSpec 0 (every8th (attribs.drop 6))
        ++ deltaZigSpec 0 (every8th (attribs.drop 7)) := by
  unfold CompressQuantizedAttribsToUtf8
  rw [channelLoop_eq_spec attribs attribs.length 0 0 (by omega),
    channelLoop_eq_spec attribs attribs.length 1 0 (by omega),
    channelLoop_eq_spec attribs attribs.length 2 0 (by omega),
    channelLoop_eq_spec attribs attribs.length 3 0 (by omega),
    channelLoop_eq_spec attribs attribs.length 4 0 (by omega),
    channelLoop_eq_spec attribs attribs.length 5 0 (by omega),
    channelLoop_eq_spec attribs attribs.length 6 0 (by omega),
    channelLoop_eq_spec attribs attribs.length 7 0 (by omega)]

/-- Embedding of `CompressSimpleMeshToFile` from `src/mesh.h`, up to the
final file write: length-multiple-of-8 and vertex-count range checks abort
on violation (`none`, nothing written); otherwise the emitted word stream
is the header `num_verts - 1`, then all attribute words, then all index
words (the latter aborting the whole run on an invalid index list). -/
def CompressSimpleMeshToFile (attribs : List Nat) (indices : List Int) :
    Option (List Nat) :=
  if attribs.length % 8 = 0 then
    if 0 < attribs.length / 8 then
      if attribs.length / 8 < 65536 then
        match CompressIndicesToUtf8 indices with
        | some idxWords =>
            some ((attribs.length / 8 - 1)
              :: (CompressQuantizedAttribsToUtf8 attribs ++ idxWords))
        | none => none
      else none
    else none
  else none

/-- C5: the stream assembler emits exactly the header word
`vertex_count - 1`, then the full attribute-compressor output for all 8
channels, then the full index-compressor output; violating any
precondition (length not a multiple of 8, vertex count 0 or at least
65536, or an invalid index list) is a hard failure producing no output at
all. -/
theorem compress_mesh_stream (attribs : List Nat) (indices : List Int) :
    (∀ ws, attribs.length % 8 = 0 → 0 < attribs.length / 8 →
        attribs.length / 8 < 65536 → CompressIndicesToUtf8 indices = some ws →
        CompressSimpleMeshToFile attribs indices
          = some ((attribs.length / 8 - 1)
              :: (CompressQuantizedAttribsToUtf8 attribs ++ ws)))
    ∧ (attribs.length % 8 ≠ 0 → CompressSimpleMeshToFile attribs indices = none)
    ∧ (attribs.length / 8 = 0 → CompressSimpleMeshToFile attribs indices = none)
    ∧ (65536 ≤ attribs.length / 8 → CompressSimpleMeshToFile attribs indices = none)
    ∧ (CompressIndicesToUtf8 indices = none →
        CompressSimpleMeshToFile attribs indices = none) := by
  refine ⟨?_, ?_, ?_, ?_, ?_⟩
  · intro ws h8 hpos hlt hidx
    simp only [CompressSimpleMeshToFile, if_pos h8, if_pos hpos, if_pos hlt, hidx]
  · intro h8
    simp only [CompressSimpleMeshToFile, if_neg h8]
  · intro h0
    unfold CompressSimpleMeshToFile
    split_ifs <;> first | rfl | omega
  · intro hge
    unfold CompressSimpleMeshToFile
    split_ifs <;> first | rfl | omega
  · intro hidx
    unfold CompressSimpleMeshToFile
    split_ifs <;> first | rfl | simp [hidx]

/-- Witness for C5 on a one-vertex mesh of 8 zero attributes and three
indices `[0, 0, 0]`. -/
theorem compress_mesh_stream_witness :
    CompressSimpleMeshToFile (List.replicate 8 0) [0, 0, 0]
      = some (((List.replicate 8 (0 : Nat)).length / 8 - 1)
          :: (CompressQuantizedAttribsToUtf8 (List.replicate 8 0) ++ [0, 1, 1])) :=
  (compress_mesh_stream (List.replicate 8 0) [0, 0, 0]).1 [0, 1, 1]
    (by decide) (by decide) (by decide) (by decide)

/-- Model of the single-precision float values handled by the bounds
computations: a finite value (idealized as a rational, since the bounds
claims are about which expressions are assigned where, not about rounding)
or one of the two infinities.  NaN is outside the model; the spec (section
9) leaves non-finite input behavior undefined. -/
inductive Flt where
  | negInf : Flt
  | fin : ℚ → Flt
  | posInf : Flt
deriving DecidableEq

/-- Negation of a float value. -/
def Flt.neg : Flt → Flt
  | negInf => posInf
  | fin q => fin (-q)
  | posInf => negInf

/-- Subtraction of float values.  The indeterminate forms (infinity minus
the same infinity, which IEEE makes NaN) are mapped to the left operand;
no claim depends on that choice, since code and spec are compared using
the same operation. -/
def Flt.sub : Flt → Flt → Flt
  | fin a, fin b => fin (a - b)
  | fin _, posInf => negInf
  | fin _, negInf => posInf
  | posInf, _ => posInf
  | negInf, _ => negInf

/-- Strict order test on float values, mirroring a C float comparison. -/
def Flt.blt : Flt → Flt → Bool
  | negInf, negInf => false
  | negInf, _ => true
  | fin _, negInf => false
  | fin a, fin b => decide (a < b)
  | fin _, posInf => true
  | posInf, _ => false

/-- Largest of two float values, used to state what the ternary chain in
`UniformScaleFromBounds` computes. -/
def Flt.fmax (a b : Flt) : Flt := if a.blt b then b else a

/-- The value of the C constant `FLT_MAX`: the largest finite
single-precision float, `(2 - 2 ^ (-23)) * 2 ^ 127`. -/
def fltMax : Flt := Flt.fin ((2 ^ 128 : ℚ) - 2 ^ 104)

/-- Embedding of `struct Bounds` from `src/mesh.h`: 8 per-channel minima
and maxima. -/
structure Bounds where
  mins : Fin 8 → Flt
  maxes : Fin 8 → Flt

/-- Embedding of `Bounds::Clear` from `src/mesh.h`: every channel gets
`mins[i] = FLT_MAX` and `maxes[i] = -FLT_MAX`. -/
def clearedBounds : Bounds :=
  { mins := fun _ => fltMax, maxes := fun _ => fltMax.neg }

/-- Embedding of `UniformScaleFromBounds` from `src/mesh.h`: the ternary
chain over the three position-channel extents. -/
def UniformScaleFromBounds (bounds : Bounds) : Flt :=
  let x := (bounds.maxes 0).sub (bounds.mins 0)
  let y := (bounds.maxes 1).sub (bounds.mins 1)
  let z := (bounds.maxes 2).sub (bounds.mins 2)
  if y.blt x then (if z.blt x then x else z) else (if z.blt y then y else z)

/-- Embedding of `struct BoundsParams` from `src/mesh.h`. -/
structure BoundsParams where
  offsets : Fin 8 → Flt
  scales : Fin 8 → Flt
  bits : Fin 8 → Nat

/-- Embedding of `BoundsParams::FromBounds` from `src/mesh.h`: the three
fill loops (positions 0-2, texcoords 3-4, normals 5-7) become a case split
on the channel index. -/
def BoundsParams.FromBounds (bounds : Bounds) : BoundsParams :=
  let scale := UniformScaleFromBounds bounds
  { offsets := fun i =>
      if (i : Nat) < 3 then (bounds.mins i).neg
      else if (i : Nat) < 5 then (bounds.mins i).neg
      else Flt.fin 1,
    scales := fun i =>
      if (i : Nat) < 3 then scale
      else if (i : Nat) < 5 then (bounds.maxes i).sub (bounds.mins i)
      else Flt.fin 2,
    bits := fun i => if (i : Nat) < 3 then 14 else 10 }

theorem Flt.blt_asymm {a b : Flt} (h : a.blt b = true) : b.blt a = false := by
  cases a <;> cases b <;> (simp_all [Flt.blt]; try linarith)

theorem Flt.eq_of_not_blt {a b : Flt} (hab : a.blt b = false) (hba : b.blt a = false) :
    a = b := by
  cases a <;> cases b <;> (simp_all [Flt.blt]; try linarith)

theorem flt_flip (a c : Flt) :
    (if c.blt a then a else c) = (if a.blt c then c else a) := by
  by_cases h1 : c.blt a = true
  · rw [if_pos h1, if_neg (by rw [Flt.blt_asymm h1]; exact Bool.false_ne_true)]
  · have h1f : c.blt a = false := by
      cases hq : c.blt a
      · rfl
      · exact absurd hq h1
    by_cases h2 : a.blt c = true
    · rw [if_neg h1, if_pos h2]
    · have h2f : a.blt c = false := by
        cases hq : a.blt c
        · rfl
        · exact absurd hq h2
      rw [if_neg h1, if_neg h2]
      exact (Flt.eq_of_not_blt h2f h1f).symm

theorem ternary_eq_fmax (x y z : Flt) :
    (if y.blt x then (if z.blt x then x else z) else (if z.blt y then y else z))
      = Flt.fmax (Flt.fmax x y) z := by
  by_cases hxy : x.blt y = true
  · have hyx : y.blt x = false := Flt.blt_asymm hxy
    simp only [Flt.fmax, hxy, if_true, hyx, Bool.false_eq_true, if_false]
    exact flt_flip y z
  · have hxyf : x.blt y = false := by
      cases hq : x.blt y
      · rfl
      · exact absurd hq hxy
    by_cases hyx : y.blt x = true
    · simp only [Flt.fmax, hxyf, Bool.false_eq_true, if_false, hyx, if_true]
      exact flt_flip x z
    · have hyxf : y.blt x = false := by
        cases hq : y.blt x
        · rfl
        · exact absurd hq hyx
      have hxyeq : x = y := Flt.eq_of_not_blt hxyf hyxf
      simp only [Flt.fmax, hxyf, Bool.false_eq_true, if_false, hyxf]
      rw [hxyeq]
      exact flt_flip y z

theorem uniformScale_eq_fmax (bounds : Bounds) :
    UniformScaleFromBounds bounds
      = Flt.fmax (Flt.fmax ((bounds.maxes 0).sub (bounds.mins 0))
          ((bounds.maxes 1).sub (bounds.mins 1)))
          ((bounds.maxes 2).sub (bounds.mins 2)) :=
  ternary_eq_fmax _ _ _

/-- C6: for every bounds value, position channels 0-2 get offset equal to
the negated channel minimum, the single largest extent of the three
position channels as a shared scale, and bit depth 14; texcoord channels
3-4 get the negated minimum and their own extent per channel with bit
depth 10; normal channels 5-7 get the fixed offset 1.0 and scale 2.0 with
bit depth 10. -/
theorem bounds_params_from_bounds (bounds : Bounds) (i : Fin 8) :
    ((i : Nat) < 3 →
      (BoundsParams.FromBounds bounds).offsets i = (bounds.mins i).neg
      ∧ (BoundsParams.FromBounds bounds).scales i
          = Flt.fmax (Flt.fmax ((bounds.maxes 0).sub (bounds.mins 0))
              ((bounds.maxes 1).sub (bounds.mins 1)))
              ((bounds.maxes 2).sub (bounds.mins 2))
      ∧ (BoundsParams.FromBounds bounds).bits i = 14)
    ∧ (3 ≤ (i : Nat) → (i : Nat) < 5 →
      (BoundsParams.FromBounds bounds).offsets i = (bounds.mins i).neg
      ∧ (BoundsParams.FromBounds bounds).scales i
          = (bounds.maxes i).sub (bounds.mins i)
      ∧ (BoundsParams.FromBounds bounds).bits i = 10)
    ∧ (5 ≤ (i : Nat) →
      (BoundsParams.FromBounds bounds).offsets i = Flt.fin 1
      ∧ (BoundsParams.FromBounds bounds).scales i = Flt.fin 2
      ∧ (BoundsParams.FromBounds bounds).bits i = 10) := by
  refine ⟨fun h3 => ?_, fun h3 h5 => ?_, fun h5 => ?_⟩
  · refine ⟨?_, ?_, ?_⟩
    · show (if (i : Nat) < 3 then (bounds.mins i).neg
          else if (i : Nat) < 5 then (bounds.mins i).neg else Flt.fin 1)
          = (bounds.mins i).neg
      rw [if_pos h3]
    · show (if (i : Nat) < 3 then UniformScaleFromBounds bounds
          else if (i : Nat) < 5 then (bounds.maxes i).sub (bounds.mins i)
          else Flt.fin 2) = _
      rw [if_pos h3]
      exact uniformScale_eq_fmax bounds
    · show (if (i : Nat) < 3 then 14 else 10) = 14
      rw [if_pos h3]
  · have hn3 : ¬ (i : Nat) < 3 := by omega
    refine ⟨?_, ?_, ?_⟩
    · show (if (i : Nat) < 3 then (bounds.mins i).neg
          else if (i : Nat) < 5 then (bounds.mins i).neg else Flt.fin 1)
          = (bounds.mins i).neg
      rw [if_neg hn3, if_pos h5]
    · show (if (i : Nat) < 3 then UniformScaleFromBounds bounds
          else if (i : Nat) < 5 then (bounds.maxes i).sub (bounds.mins i)
          else Flt.fin 2) = (bounds.maxes i).sub (bounds.mins i)
      rw [if_neg hn3, if_pos h5]
    · show (if (i : Nat) < 3 then 14 else 10) = 10
      rw [if_neg hn3]
  · have hn3 : ¬ (i : Nat) < 3 := by omega
    have hn5 : ¬ (i : Nat) < 5 := by omega
    refine ⟨?_, ?_, ?_⟩
    · show (if (i : Nat) < 3 then (bounds.mins i).neg
          else if (i : Nat) < 5 then (bounds.mins i).neg else Flt.fin 1)
          = Flt.fin 1
      rw [if_neg hn3, if_neg hn5]
    · show (if (i : Nat) < 3 then UniformScaleFromBounds bounds
          else if (i : Nat) < 5 then (bounds.maxes i).sub (bounds.mins i)
          else Flt.fin 2) = Flt.fin 2
      rw [if_neg hn3, if_neg hn5]
    · show (if (i : Nat) < 3 then 14 else 10) = 10
      rw [if_neg hn3]

/-- Witness for C6 at the cleared bounds, one channel from each group. -/
theorem bounds_params_from_bounds_witness :
    ((BoundsParams.FromBounds clearedBounds).offsets 0 = (clearedBounds.mins 0).neg
      ∧ (BoundsParams.FromBounds clearedBounds).bits 0 = 14)
    ∧ ((BoundsParams.FromBounds clearedBounds).scales 3
        = (clearedBounds.maxes 3).sub (clearedBounds.mins 3)
      ∧ (BoundsParams.FromBounds clearedBounds).bits 3 = 10)
    ∧ ((BoundsParams.FromBounds clearedBounds).offsets 5 = Flt.fin 1
      ∧ (BoundsParams.FromBounds clearedBounds).scales 5 = Flt.fin 2) := by
  refine ⟨⟨?_, ?_⟩, ⟨?_, ?_⟩, ⟨?_, ?_⟩⟩
  · exact ((bounds_params_from_bounds clearedBounds 0).1 (by decide)).1
  · exact ((bounds_params_from_bounds clearedBounds 0).1 (by decide)).2.2
  · exact ((bounds_params_from_bounds clearedBounds 3).2.1 (by decide) (by decide)).2.1
  · exact ((bounds_params_from_bounds clearedBounds 3).2.1 (by decide) (by decide)).2.2
  · exact ((bounds_params_from_bounds clearedBounds 5).2.2 (by decide)).1
  · exact ((bounds_params_from_bounds clearedBounds 5).2.2 (by decide)).2.1

/-- C9 counterexample: after `Bounds::Clear` the channel minima are the
finite value `FLT_MAX`, not positive infinity (and the maxima are
`-FLT_MAX`, not negative infinity), so the claim as stated is false. -/
theorem bounds_clear_not_infinite :
    ¬ (∀ j : Fin 8, clearedBounds.mins j = Flt.posInf
        ∧ clearedBounds.maxes j = Flt.negInf) := by
  intro h
  exact absurd ((h 0).1) (by decide)

/-- C9 amended: after `Bounds::Clear` every channel has min equal to
`FLT_MAX`, the largest finite float, and max equal to `-FLT_MAX` (the code
uses the extreme finite values as sentinels, not the infinities). -/
theorem bounds_clear_flt_max :
    ∀ j : Fin 8, clearedBounds.mins j = fltMax
      ∧ clearedBounds.maxes j = fltMax.neg :=
  fun _ => ⟨rfl, rfl⟩

/-- A raw attribute-index triple, the key space of `IndexFlattener`.  The
position index is the table subscript in `GetFlattenedIndex` and must be
non-negative for the C code to be defined, so it is a `Nat`; texcoord and
normal indices may be -1 for an absent channel, so they stay `Int`. -/
structure Triple where
  pos : Nat
  tex : Int
  nrm : Int
deriving DecidableEq

/-- One slot of the directly-indexed table of `IndexFlattener`.  The C
`IndexType` overloads its first field: `kIndexUnknown` (-1) marks an empty
slot, `kIndexNotInTable` (-2) marks a position that moved to the map, and
any other value is a cached flat index (always non-negative, so the
sentinels never collide); the three cases become constructors. -/
inductive TableEntry where
  | unknown : TableEntry
  | notInTable : TableEntry
  | cached : Nat → Int → Int → TableEntry
deriving DecidableEq

/-- State of `IndexFlattener` from `src/mesh.h`.  The growable vector
`table_` (whose default-constructed slots are `kIndexUnknown`) becomes a
total function; the ordered `map_` becomes an association list, adequate
because `std::map` behaves as a finite key-value map. -/
structure IndexFlattener where
  count : Nat
  table : Nat → TableEntry
  map : List (Triple × Nat)

/-- Lookup in the association list modelling `map_`. -/
def mapLookup (m : List (Triple × Nat)) (k : Triple) : Option Nat :=
  match m with
  | [] => none
  | e :: rest => if e.1 = k then some e.2 else mapLookup rest k

/-- Insertion modelling `std::map::insert`: a pair with an already-present
key is not inserted (the old mapping is kept). -/
def mapInsert (m : List (Triple × Nat)) (k : Triple) (v : Nat) :
    List (Triple × Nat) :=
  match mapLookup m k with
  | some _ => m
  | none => (k, v) :: m

/-- A freshly constructed `IndexFlattener`: zero count, all table slots
unknown, empty map. -/
def initFlattener : IndexFlattener :=
  { count := 0, table := fun _ => TableEntry.unknown, map := [] }

/-- Embedding of `IndexFlattener::GetFlattenedIndexFromMap`: look the full
triple up in the map, inserting it with the next flat index if absent. -/
def getFlattenedIndexFromMap (f : IndexFlattener) (t : Triple) :
    (Nat × Bool) × IndexFlattener :=
  match mapLookup f.map t with
  | none =>
      ((f.count, true),
        { f with count := f.count + 1, map := mapInsert f.map t f.count })
  | some flat => ((flat, false), f)

/-- Embedding of `IndexFlattener::GetFlattenedIndex`: the optimistic table
lookup with the ambiguous-position fallback to the map.  Resizing `table_`
is invisible because the table is total with `unknown` as default. -/
def getFlattenedIndex (f : IndexFlattener) (t : Triple) :
    (Nat × Bool) × IndexFlattener :=
  match f.table t.pos with
  | TableEntry.unknown =>
      ((f.count, true),
        { count := f.count + 1,
          table := fun p =>
            if p = t.pos then TableEntry.cached f.count t.tex t.nrm else f.table p,
          map := f.map })
  | TableEntry.notInTable => getFlattenedIndexFromMap f t
  | TableEntry.cached flat tex nrm =>
      if tex = t.tex ∧ nrm = t.nrm then ((flat, false), f)
      else
        ((f.count, true),
          { count := f.count + 1,
            table := fun p =>
              if p = t.pos then TableEntry.notInTable else f.table p,
            map := mapInsert (mapInsert f.map (Triple.mk t.pos tex nrm) flat)
              t f.count })

/-- Triples of `D` whose position is `p`, in order: the combinations seen
so far at one table slot. -/
def combosAt (D : List Triple) (p : Nat) : List Triple :=
  match D with
  | [] => []
  | u :: rest => if u.pos = p then u :: combosAt rest p else combosAt rest p

/-- Index of the first occurrence of `t` in `D`: the flat index assigned
to a triple, counted in first-occurrence order. -/
def posIn (D : List Triple) (t : Triple) : Nat :=
  match D with
  | [] => 0
  | u :: rest => if u = t then 0 else posIn rest t + 1

theorem combosAt_append (D E : List Triple) (p : Nat) :
    combosAt (D ++ E) p = combosAt D p ++ combosAt E p := by
  induction D with
  | nil => rfl
  | cons u rest ih =>
    by_cases h : u.pos = p
    · simp only [List.cons_append, combosAt, if_pos h, List.append_eq, ih]
    · simp only [List.cons_append, combosAt, if_neg h, List.append_eq, ih]

theorem mem_combosAt_self {D : List Triple} {t : Triple} (h : t ∈ D) :
    t ∈ combosAt D t.pos := by
  induction D with
  | nil => exact absurd h (List.not_mem_nil t)
  | cons u rest ih =>
    rcases List.mem_cons.mp h with rfl | hmem
    · simp [combosAt]
    · by_cases hp : u.pos = t.pos
      · simp only [combosAt, if_pos hp]
        exact List.mem_cons_of_mem _ (ih hmem)
      · simp only [combosAt, if_neg hp]
        exact ih hmem

theorem combosAt_subset {D : List Triple} {p : Nat} {u : Triple}
    (h : u ∈ combosAt D p) : u ∈ D ∧ u.pos = p := by
  induction D with
  | nil => exact absurd h (List.not_mem_nil u)
  | cons v rest ih =>
    by_cases hp : v.pos = p
    · simp only [combosAt, if_pos hp] at h
      rcases List.mem_cons.mp h with rfl | hmem
      · exact ⟨List.mem_cons_self _ _, hp⟩
      · exact ⟨List.mem_cons_of_mem _ (ih hmem).1, (ih hmem).2⟩
    · simp only [combosAt, if_neg hp] at h
      exact ⟨List.mem_cons_of_mem _ (ih h).1, (ih h).2⟩

theorem combosAt_singleton_elem {D : List Triple} {p : Nat} {u : Triple}
    (hc : combosAt D p = [u]) : u ∈ D ∧ u.pos = p :=
  combosAt_subset (hc ▸ List.mem_singleton_self u)

theorem posIn_lt_length {D : List Triple} {t : Triple} (h : t ∈ D) :
    posIn D t < D.length := by
  induction D with
  | nil => exact absurd h (List.not_mem_nil t)
  | cons u rest ih =>
    by_cases hu : u = t
    · simp [posIn, hu]
    · rcases List.mem_cons.mp h with rfl | hmem
      · exact absurd rfl hu
      · simp only [posIn, if_neg hu, List.length_cons]
        exact Nat.succ_lt_succ (ih hmem)

theorem posIn_append_of_mem {D : List Triple} {t : Triple} (h : t ∈ D)
    (E : List Triple) : posIn (D ++ E) t = posIn D t := by
  induction D with
  | nil => exact absurd h (List.not_mem_nil t)
  | cons u rest ih =>
    by_cases hu : u = t
    · simp [posIn, hu]
    · rcases List.mem_cons.mp h with rfl | hmem
      · exact absurd rfl hu
      · simp only [List.cons_append, posIn, if_neg hu, List.append_eq, ih hmem]

theorem posIn_append_self {D : List Triple} {t : Triple} (h : t ∉ D) :
    posIn (D ++ [t]) t = D.length := by
  induction D with
  | nil => simp [posIn]
  | cons u rest ih =>
    have hu : u ≠ t := fun he => h (he ▸ List.mem_cons_self _ _)
    have hrest : t ∉ rest := fun hm => h (List.mem_cons_of_mem _ hm)
    simp only [List.cons_append, posIn, if_neg hu, List.append_eq, ih hrest,
      List.length_cons]

theorem mapLookup_insert_self {m : List (Triple × Nat)} {k : Triple} {v : Nat}
    (h : mapLookup m k = none) : mapLookup (mapInsert m k v) k = some v := by
  unfold mapInsert
  rw [h]
  simp [mapLookup]

theorem mapLookup_insert_ne {m : List (Triple × Nat)} {k t : Triple} {v : Nat}
    (h : k ≠ t) : mapLookup (mapInsert m k v) t = mapLookup m t := by
  unfold mapInsert
  cases hl : mapLookup m k
  · simp [mapLookup, h]
  · rfl

theorem mapInsert_of_lookup_none {m : List (Triple × Nat)} {k : Triple} {v : Nat}
    (h : mapLookup m k = none) : mapInsert m k v = (k, v) :: m := by
  unfold mapInsert
  rw [h]

theorem combos_append_same (D : List Triple) (t : Triple) :
    combosAt (D ++ [t]) t.pos = combosAt D t.pos ++ [t] := by
  rw [combosAt_append]
  simp [combosAt]

theorem combos_append_other (D : List Triple) (t : Triple) {p : Nat}
    (hp : p ≠ t.pos) : combosAt (D ++ [t]) p = combosAt D p := by
  rw [combosAt_append]
  have hone : combosAt [t] p = [] := by
    simp only [combosAt]
    rw [if_neg (Ne.symm hp)]
  rw [hone, List.append_nil]

/-- Representation invariant tying a flattener state to the list `D` of
distinct triples seen so far, in first-occurrence order: the count is the
number of distinct triples; a position with no combination is unknown, one
with exactly one combination caches it with its flat index, one with two
or more is marked not-in-table; the map holds exactly the triples of
marked positions, each bound to its flat index. -/
structure FlatRepr (f : IndexFlattener) (D : List Triple) : Prop where
  count_eq : f.count = D.length
  table_none : ∀ p, combosAt D p = [] → f.table p = TableEntry.unknown
  table_one : ∀ p u, combosAt D p = [u] →
    f.table p = TableEntry.cached (posIn D u) u.tex u.nrm
  table_many : ∀ p, 2 ≤ (combosAt D p).length → f.table p = TableEntry.notInTable
  map_mem : ∀ t : Triple, t ∈ D → 2 ≤ (combosAt D t.pos).length →
    mapLookup f.map t = some (posIn D t)
  map_not_mem : ∀ t : Triple, t ∉ D → mapLookup f.map t = none
  map_few : ∀ t : Triple, (combosAt D t.pos).length ≤ 1 → mapLookup f.map t = none

theorem flatRepr_init : FlatRepr initFlattener [] := by
  refine ⟨rfl, fun p _ => rfl, fun p u hc => ?_, fun p hlen => ?_,
    fun t hmem _ => ?_, fun t _ => rfl, fun t _ => rfl⟩
  · exact absurd hc (by simp [combosAt])
  · exact absurd hlen (by simp [combosAt])
  · exact absurd hmem (List.not_mem_nil t)

theorem getFlattenedIndex_mem {f : IndexFlattener} {D : List Triple} {t : Triple}
    (h : FlatRepr f D) (ht : t ∈ D) :
    getFlattenedIndex f t = ((posIn D t, false), f) := by
  cases hc : combosAt D t.pos with
  | nil =>
    have := mem_combosAt_self ht
    rw [hc] at this
    exact absurd this (List.not_mem_nil t)
  | cons u rest =>
    cases rest with
    | nil =>
      have htu : t = u := by
        have hm := mem_combosAt_self ht
        rw [hc] at hm
        exact List.mem_singleton.mp hm
      have htab := h.table_one t.pos u hc
      rw [← htu] at htab
      simp only [getFlattenedIndex, htab]
      simp
    | cons v rest2 =>
      have hlen : 2 ≤ (combosAt D t.pos).length := by
        rw [hc]
        simp only [List.length_cons]
        omega
      have htab := h.table_many t.pos hlen
      have hmap := h.map_mem t ht hlen
      simp only [getFlattenedIndex, htab, getFlattenedIndexFromMap, hmap]

theorem triple_eq {a b : Triple} (h1 : a.pos = b.pos) (h2 : a.tex = b.tex)
    (h3 : a.nrm = b.nrm) : a = b := by
  cases a
  cases b
  simp_all

theorem getFlattenedIndex_new_nil {f : IndexFlattener} {D : List Triple}
    {t : Triple} (h : FlatRepr f D) (ht : t ∉ D) (hc : combosAt D t.pos = []) :
    (getFlattenedIndex f t).1 = (D.length, true)
    ∧ FlatRepr (getFlattenedIndex f t).2 (D ++ [t]) := by
  have htab := h.table_none t.pos hc
  have heq : getFlattenedIndex f t
      = ((f.count, true),
        { count := f.count + 1,
          table := fun p =>
            if p = t.pos then TableEntry.cached f.count t.tex t.nrm else f.table p,
          map := f.map }) := by
    simp only [getFlattenedIndex, htab]
  rw [heq]
  refine ⟨by rw [h.count_eq], ?_, ?_, ?_, ?_, ?_, ?_, ?_⟩
  · simp [h.count_eq]
  · intro p hc'
    by_cases hp : p = t.pos
    · subst hp
      rw [combos_append_same] at hc'
      exact absurd hc' (by simp)
    · rw [combos_append_other D t hp] at hc'
      show (if p = t.pos then TableEntry.cached f.count t.tex t.nrm else f.table p)
          = TableEntry.unknown
      rw [if_neg hp]
      exact h.table_none p hc'
  · intro p u hc'
    by_cases hp : p = t.pos
    · subst hp
      rw [combos_append_same, hc, List.nil_append] at hc'
      have h1 : t = u := by injection hc'
      show (if t.pos = t.pos then TableEntry.cached f.count t.tex t.nrm
            else f.table t.pos)
          = TableEntry.cached (posIn (D ++ [t]) u) u.tex u.nrm
      rw [if_pos rfl, ← h1, posIn_append_self ht, h.count_eq]
    · rw [combos_append_other D t hp] at hc'
      have hu := combosAt_singleton_elem hc'
      show (if p = t.pos then TableEntry.cached f.count t.tex t.nrm else f.table p)
          = TableEntry.cached (posIn (D ++ [t]) u) u.tex u.nrm
      rw [if_neg hp, posIn_append_of_mem hu.1]
      exact h.table_one p u hc'
  · intro p hlen'
    by_cases hp : p = t.pos
    · subst hp
      rw [combos_append_same, hc, List.nil_append] at hlen'
      simp at hlen'
    · rw [combos_append_other D t hp] at hlen'
      show (if p = t.pos then TableEntry.cached f.count t.tex t.nrm else f.table p)
          = TableEntry.notInTable
      rw [if_neg hp]
      exact h.table_many p hlen'
  · intro t2 ht2 hlen'
    by_cases hp : t2.pos = t.pos
    · rw [hp, combos_append_same, hc, List.nil_append] at hlen'
      simp at hlen'
    · rw [combos_append_other D t hp] at hlen'
      have ht2D : t2 ∈ D := by
        rcases List.mem_append.mp ht2 with hd | hs
        · exact hd
        · exact absurd (congrArg Triple.pos (List.mem_singleton.mp hs)) hp
      show mapLookup f.map t2 = some (posIn (D ++ [t]) t2)
      rw [posIn_append_of_mem ht2D]
      exact h.map_mem t2 ht2D hlen'
  · intro t2 hnot
    exact h.map_not_mem t2 (fun hd => hnot (List.mem_append_left _ hd))
  · intro t2 hlen'
    by_cases hp : t2.pos = t.pos
    · refine h.map_few t2 ?_
      rw [hp, hc]
      simp
    · rw [combos_append_other D t hp] at hlen'
      exact h.map_few t2 hlen'

theorem getFlattenedIndex_new_single {f : IndexFlattener} {D : List Triple}
    {t u : Triple} (h : FlatRepr f D) (ht : t ∉ D)
    (hc : combosAt D t.pos = [u]) :
    (getFlattenedIndex f t).1 = (D.length, true)
    ∧ FlatRepr (getFlattenedIndex f t).2 (D ++ [t]) := by
  have hu := combosAt_singleton_elem hc
  have htab := h.table_one t.pos u hc
  have hut : u ≠ t := fun he => ht (he ▸ hu.1)
  have hne : ¬ (u.tex = t.tex ∧ u.nrm = t.nrm) := by
    rintro ⟨h1, h2⟩
    exact hut (triple_eq hu.2 h1 h2)
  have hmu : mapLookup f.map u = none := by
    refine h.map_few u ?_
    rw [hu.2, hc]
    simp
  have hmt : mapLookup f.map t = none := h.map_not_mem t ht
  have hmk : Triple.mk t.pos u.tex u.nrm = u := triple_eq hu.2.symm rfl rfl
  have hm2 : mapLookup ((u, posIn D u) :: f.map) t = none := by
    simp only [mapLookup, if_neg hut]
    exact hmt
  have heq : getFlattenedIndex f t
      = ((f.count, true),
        { count := f.count + 1,
          table := fun p =>
            if p = t.pos then TableEntry.notInTable else f.table p,
          map := (t, f.count) :: (u, posIn D u) :: f.map }) := by
    simp only [getFlattenedIndex, htab, if_neg hne, hmk,
      mapInsert_of_lookup_none hmu]
    rw [mapInsert_of_lookup_none hm2]
  rw [heq]
  refine ⟨by rw [h.count_eq], ?_, ?_, ?_, ?_, ?_, ?_, ?_⟩
  · simp [h.count_eq]
  · intro p hc'
    by_cases hp : p = t.pos
    · subst hp
      rw [combos_append_same, hc] at hc'
      exact absurd hc' (by simp)
    · rw [combos_append_other D t hp] at hc'
      show (if p = t.pos then TableEntry.notInTable else f.table p)
          = TableEntry.unknown
      rw [if_neg hp]
      exact h.table_none p hc'
  · intro p v hc'
    by_cases hp : p = t.pos
    · subst hp
      rw [combos_append_same, hc] at hc'
      have hl := congrArg List.length hc'
      simp at hl
    · rw [combos_append_other D t hp] at hc'
      have hv := combosAt_singleton_elem hc'
      show (if p = t.pos then TableEntry.notInTable else f.table p)
          = TableEntry.cached (posIn (D ++ [t]) v) v.tex v.nrm
      rw [if_neg hp, posIn_append_of_mem hv.1]
      exact h.table_one p v hc'
  · intro p hlen'
    show (if p = t.pos then TableEntry.notInTable else f.table p)
        = TableEntry.notInTable
    by_cases hp : p = t.pos
    · rw [if_pos hp]
    · rw [if_neg hp]
      rw [combos_append_other D t hp] at hlen'
      exact h.table_many p hlen'
  · intro t2 ht2 hlen'
    show mapLookup ((t, f.count) :: (u, posIn D u) :: f.map) t2
        = some (posIn (D ++ [t]) t2)
    by_cases h1 : t = t2
    · rw [← h1]
      simp [mapLookup, posIn_append_self ht, h.count_eq]
    · by_cases h2 : u = t2
      · rw [← h2]
        have htu : ¬ t = u := fun he => hut he.symm
        simp [mapLookup, htu, posIn_append_of_mem hu.1]
      · simp only [mapLookup, if_neg h1, if_neg h2]
        have ht2D : t2 ∈ D := by
          rcases List.mem_append.mp ht2 with hd | hs
          · exact hd
          · exact absurd (List.mem_singleton.mp hs).symm h1
        have hp : t2.pos ≠ t.pos := by
          intro hpp
          have hm := mem_combosAt_self ht2D
          rw [hpp, hc] at hm
          exact h2 (List.mem_singleton.mp hm).symm
        rw [posIn_append_of_mem ht2D]
        refine h.map_mem t2 ht2D ?_
        rw [combos_append_other D t hp] at hlen'
        exact hlen'
  · intro t2 hnot
    have h1 : ¬ t = t2 :=
      fun he => hnot (List.mem_append_right _ (he ▸ List.mem_singleton_self t))
    have h2 : ¬ u = t2 := fun he => hnot (List.mem_append_left _ (he ▸ hu.1))
    show mapLookup ((t, f.count) :: (u, posIn D u) :: f.map) t2 = none
    simp only [mapLookup, if_neg h1, if_neg h2]
    exact h.map_not_mem t2 (fun hd => hnot (List.mem_append_left _ hd))
  · intro t2 hlen'
    by_cases hp : t2.pos = t.pos
    · rw [hp, combos_append_same, hc] at hlen'
      simp at hlen'
    · have h1 : ¬ t = t2 := fun he => hp (congrArg Triple.pos he.symm)
      have h2 : ¬ u = t2 := fun he => hp (he ▸ hu.2)
      show mapLookup ((t, f.count) :: (u, posIn D u) :: f.map) t2 = none
      simp only [mapLookup, if_neg h1, if_neg h2]
      rw [combos_append_other D t hp] at hlen'
      exact h.map_few t2 hlen'

theorem getFlattenedIndex_new_many {f : IndexFlattener} {D : List Triple}
    {t : Triple} (h : FlatRepr f D) (ht : t ∉ D)
    (hlen : 2 ≤ (combosAt D t.pos).length) :
    (getFlattenedIndex f t).1 = (D.length, true)
    ∧ FlatRepr (getFlattenedIndex f t).2 (D ++ [t]) := by
  have htab := h.table_many t.pos hlen
  have hmt : mapLookup f.map t = none := h.map_not_mem t ht
  have heq : getFlattenedIndex f t
      = ((f.count, true),
        { count := f.count + 1, table := f.table,
          map := (t, f.count) :: f.map }) := by
    simp only [getFlattenedIndex, htab, getFlattenedIndexFromMap, hmt,
      mapInsert_of_lookup_none hmt]
  rw [heq]
  refine ⟨by rw [h.count_eq], ?_, ?_, ?_, ?_, ?_, ?_, ?_⟩
  · simp [h.count_eq]
  · intro p hc'
    by_cases hp : p = t.pos
    · subst hp
      rw [combos_append_same] at hc'
      exact absurd hc' (by simp)
    · rw [combos_append_other D t hp] at hc'
      exact h.table_none p hc'
  · intro p v hc'
    by_cases hp : p = t.pos
    · subst hp
      rw [combos_append_same] at hc'
      have hl := congrArg List.length hc'
      simp only [List.length_append, List.length_singleton, List.length_cons] at hl
      exact absurd hl (by omega)
    · rw [combos_append_other D t hp] at hc'
      have hv := combosAt_singleton_elem hc'
      show f.table p = TableEntry.cached (posIn (D ++ [t]) v) v.tex v.nrm
      rw [posIn_append_of_mem hv.1]
      exact h.table_one p v hc'
  · intro p hlen'
    by_cases hp : p = t.pos
    · subst hp
      exact htab
    · rw [combos_append_other D t hp] at hlen'
      exact h.table_many p hlen'
  · intro t2 ht2 hlen'
    show mapLookup ((t, f.count) :: f.map) t2 = some (posIn (D ++ [t]) t2)
    by_cases h1 : t = t2
    · rw [← h1]
      simp [mapLookup, posIn_append_self ht, h.count_eq]
    · simp only [mapLookup, if_neg h1]
      have ht2D : t2 ∈ D := by
        rcases List.mem_append.mp ht2 with hd | hs
        · exact hd
        · exact absurd (List.mem_singleton.mp hs).symm h1
      rw [posIn_append_of_mem ht2D]
      refine h.map_mem t2 ht2D ?_
      by_cases hp : t2.pos = t.pos
      · rw [hp]
        exact hlen
      · rw [combos_append_other D t hp] at hlen'
        exact hlen'
  · intro t2 hnot
    have h1 : ¬ t = t2 :=
      fun he => hnot (List.mem_append_right _ (he ▸ List.mem_singleton_self t))
    show mapLookup ((t, f.count) :: f.map) t2 = none
    simp only [mapLookup, if_neg h1]
    exact h.map_not_mem t2 (fun hd => hnot (List.mem_append_left _ hd))
  · intro t2 hlen'
    by_cases hp : t2.pos = t.pos
    · rw [hp, combos_append_same] at hlen'
      simp only [List.length_append, List.length_singleton] at hlen'
      exact absurd hlen' (by omega)
    · have h1 : ¬ t = t2 := fun he => hp (congrArg Triple.pos he.symm)
      show mapLookup ((t, f.count) :: f.map) t2 = none
      simp only [mapLookup, if_neg h1]
      rw [combos_append_other D t hp] at hlen'
      exact h.map_few t2 hlen'

theorem getFlattenedIndex_new {f : IndexFlattener} {D : List Triple}
    {t : Triple} (h : FlatRepr f D) (ht : t ∉ D) :
    (getFlattenedIndex f t).1 = (D.length, true)
    ∧ FlatRepr (getFlattenedIndex f t).2 (D ++ [t]) := by
  cases hc : combosAt D t.pos with
  | nil => exact getFlattenedIndex_new_nil h ht hc
  | cons u rest =>
    cases rest with
    | nil => exact getFlattenedIndex_new_single h ht hc
    | cons v rest2 =>
      refine getFlattenedIndex_new_many h ht ?_
      rw [hc]
      simp only [List.length_cons]
      omega

/-- Run a flattener over a sequence of lookup calls, collecting the
returned (flat index, is-new) pairs in call order. -/
def runFrom (f : IndexFlattener) : List Triple → IndexFlattener × List (Nat × Bool)
  | [] => (f, [])
  | t :: ts =>
    let r := getFlattenedIndex f t
    let rest := runFrom r.2 ts
    (rest.1, r.1 :: rest.2)

/-- Flattener state after a sequence of calls starting from a fresh
flattener. -/
def runFlattener (s : List Triple) : IndexFlattener := (runFrom initFlattener s).1

/-- Results returned by a sequence of calls starting from a fresh
flattener. -/
def flatResults (s : List Triple) : List (Nat × Bool) := (runFrom initFlattener s).2

/-- Specification of the results: given the distinct triples `D` seen so
far in first-occurrence order, a repeated triple returns its index in `D`
with is-new false, and a new triple returns the next index with is-new
true. -/
def specFrom (D : List Triple) : List Triple → List (Nat × Bool)
  | [] => []
  | t :: ts =>
    if t ∈ D then (posIn D t, false) :: specFrom D ts
    else (D.length, true) :: specFrom (D ++ [t]) ts

/-- Distinct triples seen after a sequence of calls, extending `D` in
first-occurrence order. -/
def accSeen (D : List Triple) : List Triple → List Triple
  | [] => D
  | t :: ts => if t ∈ D then accSeen D ts else accSeen (D ++ [t]) ts

/-- Distinct triples of a sequence in first-occurrence order. -/
def firstOccs (s : List Triple) : List Triple := accSeen [] s

theorem accSeen_length_mono (D : List Triple) (s : List Triple) :
    D.length ≤ (accSeen D s).length := by
  induction s generalizing D with
  | nil => exact le_refl _
  | cons t ts ih =>
    by_cases ht : t ∈ D
    · simp only [accSeen, if_pos ht]
      exact ih D
    · simp only [accSeen, if_neg ht]
      calc D.length ≤ (D ++ [t]).length := by simp
        _ ≤ _ := ih (D ++ [t])

theorem mem_accSeen (s : List Triple) :
    ∀ D t, t ∈ accSeen D s ↔ t ∈ D ∨ t ∈ s := by
  induction s with
  | nil =>
    intro D t
    simp [accSeen]
  | cons u ts ih =>
    intro D t
    by_cases hu : u ∈ D
    · simp only [accSeen, if_pos hu]
      rw [ih D, List.mem_cons]
      constructor
      · rintro (hd | hts)
        · exact Or.inl hd
        · exact Or.inr (Or.inr hts)
      · rintro (hd | rfl | hts)
        · exact Or.inl hd
        · exact Or.inl hu
        · exact Or.inr hts
    · simp only [accSeen, if_neg hu]
      rw [ih (D ++ [u]), List.mem_cons, List.mem_append, List.mem_singleton]
      tauto

theorem runFrom_correct (s : List Triple) :
    ∀ f D, FlatRepr f D →
      (runFrom f s).2 = specFrom D s
      ∧ FlatRepr (runFrom f s).1 (accSeen D s) := by
  induction s with
  | nil => exact fun f D h => ⟨rfl, h⟩
  | cons t ts ih =>
    intro f D h
    by_cases ht : t ∈ D
    · have hstep := getFlattenedIndex_mem h ht
      have hsnd : (getFlattenedIndex f t).2 = f := by rw [hstep]
      have hfst : (getFlattenedIndex f t).1 = (posIn D t, false) := by rw [hstep]
      obtain ⟨hres, hrepr⟩ := ih (getFlattenedIndex f t).2 D (by rw [hsnd]; exact h)
      simp only [runFrom]
      refine ⟨?_, ?_⟩
      · rw [hfst, hres]
        simp only [specFrom, if_pos ht]
      · simp only [accSeen, if_pos ht]
        exact hrepr
    · obtain ⟨hfst, hrepr0⟩ := getFlattenedIndex_new h ht
      obtain ⟨hres, hrepr⟩ := ih (getFlattenedIndex f t).2 (D ++ [t]) hrepr0
      simp only [runFrom]
      refine ⟨?_, ?_⟩
      · rw [hfst, hres]
        simp only [specFrom, if_neg ht]
      · simp only [accSeen, if_neg ht]
        exact hrepr

theorem flat_spec (s : List Triple) :
    flatResults s = specFrom [] s ∧ FlatRepr (runFlattener s) (firstOccs s) :=
  runFrom_correct s initFlattener [] flatRepr_init

theorem specFrom_filter (s : List Triple) :
    ∀ D, ((specFrom D s).filter (fun r => r.2)).map Prod.fst
      = List.range' D.length ((accSeen D s).length - D.length) := by
  induction s with
  | nil =>
    intro D
    simp [specFrom, accSeen]
  | cons t ts ih =>
    intro D
    by_cases ht : t ∈ D
    · simp only [specFrom, if_pos ht, accSeen]
      rw [List.filter_cons_of_neg (by simp)]
      exact ih D
    · simp only [specFrom, if_neg ht, accSeen]
      rw [List.filter_cons_of_pos (by simp), List.map_cons, ih (D ++ [t])]
      have hmono : D.length + 1 ≤ (accSeen (D ++ [t]) ts).length := by
        have h1 := accSeen_length_mono (D ++ [t]) ts
        simp only [List.length_append, List.length_singleton] at h1
        omega
      have hsplit : (accSeen (D ++ [t]) ts).length - D.length
          = ((accSeen (D ++ [t]) ts).length - (D.length + 1)) + 1 := by
        omega
      have happ : (D ++ [t]).length = D.length + 1 := by simp
      rw [happ, hsplit, List.range'_succ]

theorem specFrom_bound (s : List Triple) :
    ∀ D r, r ∈ specFrom D s → r.1 < (accSeen D s).length := by
  induction s with
  | nil =>
    intro D r hr
    exact absurd hr (List.not_mem_nil r)
  | cons t ts ih =>
    intro D r hr
    by_cases ht : t ∈ D
    · simp only [specFrom, if_pos ht, accSeen] at hr ⊢
      rcases List.mem_cons.mp hr with rfl | hm
      · have h1 := posIn_lt_length ht
        have h2 := accSeen_length_mono D ts
        simp only []
        omega
      · exact ih D r hm
    · simp only [specFrom, if_neg ht, accSeen] at hr ⊢
      rcases List.mem_cons.mp hr with rfl | hm
      · have h2 := accSeen_length_mono (D ++ [t]) ts
        have h3 : (D ++ [t]).length = D.length + 1 := by simp
        simp only []
        omega
      · exact ih (D ++ [t]) r hm

/-- C1: over any sequence of `GetFlattenedIndex` calls, the results equal
the first-occurrence specification (repeats return the stored flat index
with is-new false, new triples return the next index with is-new true and
leave the state unchanged on later repeats); the is-new results list the
flat indices 0..N-1 in first-occurrence order for the N distinct triples;
every returned index is below N, and the set of returned indices is
exactly 0..N-1; and through the ambiguous fallback path a position seen
with two distinct texcoord and normal pairs yields flat indices 0 and 1 and
a third call reusing the first pair returns 0 again with is-new false. -/
theorem flattener_correct (s : List Triple) :
    flatResults s = specFrom [] s
    ∧ (∀ t, t ∈ s →
        getFlattenedIndex (runFlattener s) t
          = ((posIn (firstOccs s) t, false), runFlattener s))
    ∧ ((flatResults s).filter (fun r => r.2)).map Prod.fst
        = List.range (firstOccs s).length
    ∧ (∀ r, r ∈ flatResults s → r.1 < (firstOccs s).length)
    ∧ ((flatResults s).map Prod.fst).toFinset = Finset.range (firstOccs s).length
    ∧ (∀ (p : Nat) (a b c d : Int), ¬ (a = c ∧ b = d) →
        flatResults [Triple.mk p a b, Triple.mk p c d, Triple.mk p a b]
          = [(0, true), (1, true), (0, false)]) := by
  obtain ⟨h1, h2⟩ := flat_spec s
  have hfilter : ((flatResults s).filter (fun r => r.2)).map Prod.fst
      = List.range (firstOccs s).length := by
    rw [h1, specFrom_filter s []]
    simp only [List.length_nil, Nat.sub_zero]
    exact (List.range_eq_range' _).symm
  have hbound : ∀ r, r ∈ flatResults s → r.1 < (firstOccs s).length := by
    intro r hr
    rw [h1] at hr
    exact specFrom_bound s [] r hr
  refine ⟨h1, ?_, hfilter, hbound, ?_, ?_⟩
  · intro t hts
    have htF : t ∈ firstOccs s := by
      rw [firstOccs, mem_accSeen]
      exact Or.inr hts
    exact getFlattenedIndex_mem h2 htF
  · ext i
    simp only [List.mem_toFinset, Finset.mem_range, List.mem_map]
    constructor
    · rintro ⟨r, hr, rfl⟩
      exact hbound r hr
    · intro hi
      have hmem : i ∈ List.range (firstOccs s).length := List.mem_range.mpr hi
      rw [← hfilter] at hmem
      obtain ⟨r, hr, hre⟩ := List.mem_map.mp hmem
      exact ⟨r, List.mem_of_mem_filter hr, hre⟩
  · intro p a b c d hne
    have hne21 : Triple.mk p c d ≠ Triple.mk p a b := by
      intro he
      injection he with e1 e2 e3
      exact hne ⟨e2.symm, e3.symm⟩
    rw [(flat_spec _).1]
    simp [specFrom, posIn, hne21]

/-- Witness for C1: the ambiguous-position scenario at position 0 with
pairs (0, 0) and (1, 0). -/
theorem flattener_correct_witness :
    flatResults [Triple.mk 0 0 0, Triple.mk 0 1 0, Triple.mk 0 0 0]
      = [(0, true), (1, true), (0, false)] :=
  (flattener_correct []).2.2.2.2.2 0 0 0 1 0 (by decide)

/-- Embedding of `DrawMesh`: the growing interleaved attribute buffer and
flat index list of one group. -/
structure DrawMesh where
  attribs : List ℚ
  indices : List Nat

/-- Embedding of `DrawBatch` from `src/mesh.h`: the externally supplied
source buffers, the mesh under construction, and the group flattener. -/
structure DrawBatch where
  positions : List ℚ
  texcoords : List ℚ
  normals : List ℚ
  draw_mesh : DrawMesh
  flattener : IndexFlattener

/-- Model of `std::vector::at` called with an int subscript: out-of-range
access throws (a negative int wraps to a huge `size_t`), modelled as
`none`. -/
def listAt? (l : List ℚ) (i : Int) : Option ℚ :=
  if h : 0 ≤ i ∧ i.toNat < l.length then some (l.get ⟨i.toNat, h.2⟩) else none

/-- Three consecutive source floats starting at `bse`, as read by the
position and normal copy loops. -/
def fetch3 (l : List ℚ) (bse : Int) : Option (List ℚ) :=
  match listAt? l bse, listAt? l (bse + 1), listAt? l (bse + 2) with
  | some a, some b, some c => some [a, b, c]
  | _, _, _ => none

/-- Two consecutive source floats starting at `bse`, as read by the
texcoord copy loop. -/
def fetch2 (l : List ℚ) (bse : Int) : Option (List ℚ) :=
  match listAt? l bse, listAt? l (bse + 1) with
  | some a, some b => some [a, b]
  | _, _ => none

/-- The triple handed to the flattener for one corner: `.OBJ` indices are
1-based, so each component is decremented first; the position index must
be non-negative for the table subscript to be defined. -/
def cornerTriple (c : Int × Int × Int) : Triple :=
  Triple.mk (c.1 - 1).toNat (c.2.1 - 1) (c.2.2 - 1)

/-- The 8 floats appended for a newly flattened corner: 3 position floats,
2 texcoord floats (zero-filled when the texcoord index is -1), 3 normal
floats (zero-filled when the normal index is -1), in fixed channel
order. -/
def cornerAttribs (b : DrawBatch) (pi2 ti ni : Int) : Option (List ℚ) :=
  match fetch3 b.positions (3 * pi2) with
  | none => none
  | some ps =>
    match (if ti = -1 then some [0, 0] else fetch2 b.texcoords (2 * ti)) with
    | none => none
    | some tcs =>
      match (if ni = -1 then some [0, 0, 0] else fetch3 b.normals (3 * ni)) with
      | none => none
      | some ns => some (ps ++ (tcs ++ ns))

/-- One iteration of the loop body of `DrawBatch::AddTriangle`: resolve
the corner triple through the flattener, push the flat index, and append
the 8 attribute floats when the triple is new.  A negative position index
(table subscript) or an out-of-range source read is undefined behavior in
the C code, modelled as `none`. -/
def addTriangleCorner (b : DrawBatch) (c : Int × Int × Int) : Option DrawBatch :=
  if 0 ≤ c.1 - 1 then
    let r := getFlattenedIndex b.flattener (cornerTriple c)
    if r.1.2 then
      match cornerAttribs b (c.1 - 1) (c.2.1 - 1) (c.2.2 - 1) with
      | none => none
      | some vals =>
          some { b with
            flattener := r.2,
            draw_mesh := { attribs := b.draw_mesh.attribs ++ vals,
                           indices := b.draw_mesh.indices ++ [r.1.1] } }
    else
      some { b with
        flattener := r.2,
        draw_mesh := { attribs := b.draw_mesh.attribs,
                       indices := b.draw_mesh.indices ++ [r.1.1] } }
  else none

/-- Embedding of `DrawBatch::AddTriangle`: the three corners of one
triangle processed in order. -/
def addTriangle (b : DrawBatch) (c1 c2 c3 : Int × Int × Int) :
    Option DrawBatch :=
  match addTriangleCorner b c1 with
  | none => none
  | some b1 =>
    match addTriangleCorner b1 c2 with
    | none => none
    | some b2 => addTriangleCorner b2 c3

/-- A raw triangle: three corners of 1-based (position, texcoord, normal)
indices. -/
abbrev Tri := (Int × Int × Int) × (Int × Int × Int) × (Int × Int × Int)

/-- A group batch as set up by `DrawBatch::Init`: source buffers attached,
empty mesh, fresh flattener. -/
def initBatch (ps tcs ns : List ℚ) : DrawBatch :=
  { positions := ps, texcoords := tcs, normals := ns,
    draw_mesh := { attribs := [], indices := [] }, flattener := initFlattener }

/-- Sequence of `AddTriangle` calls on one batch. -/
def runBatch (b : DrawBatch) : List Tri → Option DrawBatch
  | [] => some b
  | tr :: trs =>
    match addTriangle b tr.1 tr.2.1 tr.2.2 with
    | none => none
    | some b2 => runBatch b2 trs

theorem fetch3_length {l : List ℚ} {bse : Int} {ps : List ℚ}
    (h : fetch3 l bse = some ps) : ps.length = 3 := by
  unfold fetch3 at h
  split at h
  · injection h with h2
    rw [← h2]
    rfl
  · exact absurd h (by simp)

theorem fetch2_length {l : List ℚ} {bse : Int} {ps : List ℚ}
    (h : fetch2 l bse = some ps) : ps.length = 2 := by
  unfold fetch2 at h
  split at h
  · injection h with h2
    rw [← h2]
    rfl
  · exact absurd h (by simp)

theorem cornerAttribs_spec {b : DrawBatch} {pi2 ti ni : Int} {vals : List ℚ}
    (h : cornerAttribs b pi2 ti ni = some vals) :
    ∃ ps tcs ns, ps.length = 3 ∧ tcs.length = 2 ∧ ns.length = 3
      ∧ vals = ps ++ (tcs ++ ns)
      ∧ (ti = -1 → tcs = [0, 0])
      ∧ (ni = -1 → ns = [0, 0, 0]) := by
  unfold cornerAttribs at h
  split at h
  · exact absurd h (by simp)
  case _ ps hps =>
    split at h
    · exact absurd h (by simp)
    case _ tcs htcs =>
      split at h
      · exact absurd h (by simp)
      case _ ns hns =>
        injection h with h2
        refine ⟨ps, tcs, ns, fetch3_length hps, ?_, ?_, h2.symm, ?_, ?_⟩
        · by_cases hti : ti = -1
          · rw [if_pos hti] at htcs
            injection htcs with h3
            rw [← h3]
            rfl
          · rw [if_neg hti] at htcs
            exact fetch2_length htcs
        · by_cases hni : ni = -1
          · rw [if_pos hni] at hns
            injection hns with h3
            rw [← h3]
            rfl
          · rw [if_neg hni] at hns
            exact fetch3_length hns
        · intro hti
          rw [if_pos hti] at htcs
          injection htcs with h3
          exact h3.symm
        · intro hni
          rw [if_pos hni] at hns
          injection hns with h3
          exact h3.symm

/-- Invariant of a batch after `n` corners have been added: the flattener
state is representable, the attribute buffer holds 8 floats per distinct
triple, one index per corner has been pushed, and all pushed indices are
below the distinct-triple count. -/
def BatchInv (b : DrawBatch) (n : Nat) : Prop :=
  (∃ D, FlatRepr b.flattener D)
  ∧ b.draw_mesh.attribs.length = 8 * b.flattener.count
  ∧ b.draw_mesh.indices.length = n
  ∧ ∀ i, i ∈ b.draw_mesh.indices → i < b.flattener.count

theorem addTriangleCorner_some {b : DrawBatch} {c : Int × Int × Int}
    {b2 : DrawBatch} (h : addTriangleCorner b c = some b2) :
    b2.flattener = (getFlattenedIndex b.flattener (cornerTriple c)).2
    ∧ b2.draw_mesh.indices = b.draw_mesh.indices
        ++ [(getFlattenedIndex b.flattener (cornerTriple c)).1.1]
    ∧ ((∃ vals, cornerAttribs b (c.1 - 1) (c.2.1 - 1) (c.2.2 - 1) = some vals
          ∧ (getFlattenedIndex b.flattener (cornerTriple c)).1.2 = true
          ∧ b2.draw_mesh.attribs = b.draw_mesh.attribs ++ vals)
        ∨ ((getFlattenedIndex b.flattener (cornerTriple c)).1.2 = false
          ∧ b2.draw_mesh.attribs = b.draw_mesh.attribs)) := by
  simp only [addTriangleCorner] at h
  split at h
  · split at h
    · rename_i hnew
      split at h
      · exact absurd h (by simp)
      · rename_i vals hvals
        injection h with h2
        rw [← h2]
        exact ⟨rfl, rfl, Or.inl ⟨vals, hvals, hnew, rfl⟩⟩
    · rename_i hnew
      injection h with h2
      rw [← h2]
      refine ⟨rfl, rfl, Or.inr ⟨?_, rfl⟩⟩
      simpa using hnew
  · exact absurd h (by simp)

theorem addTriangleCorner_inv {b : DrawBatch} {c : Int × Int × Int}
    {b2 : DrawBatch} {n : Nat} (hinv : BatchInv b n)
    (h : addTriangleCorner b c = some b2) : BatchInv b2 (n + 1) := by
  obtain ⟨⟨D, hD⟩, hlen, hidx, hbnd⟩ := hinv
  obtain ⟨hfl, hind, hatt⟩ := addTriangleCorner_some h
  by_cases hmem : cornerTriple c ∈ D
  · have hstep := getFlattenedIndex_mem hD hmem
    have hsnd : (getFlattenedIndex b.flattener (cornerTriple c)).2 = b.flattener := by
      rw [hstep]
    have hfst1 : (getFlattenedIndex b.flattener (cornerTriple c)).1.1
        = posIn D (cornerTriple c) := by
      rw [hstep]
    have hfst2 : (getFlattenedIndex b.flattener (cornerTriple c)).1.2 = false := by
      rw [hstep]
    have hattribs : b2.draw_mesh.attribs = b.draw_mesh.attribs := by
      rcases hatt with ⟨vals, _, htrue, _⟩ | ⟨_, he⟩
      · rw [hfst2] at htrue
        exact absurd htrue (by simp)
      · exact he
    refine ⟨⟨D, by rw [hfl, hsnd]; exact hD⟩, ?_, ?_, ?_⟩
    · rw [hattribs, hfl, hsnd]
      exact hlen
    · rw [hind]
      simp [hidx]
    · intro i hi
      rw [hind] at hi
      rw [hfl, hsnd]
      rcases List.mem_append.mp hi with hold | hnew2
      · exact hbnd i hold
      · have hi2 : i = posIn D (cornerTriple c) := by
          rw [List.mem_singleton.mp hnew2, hfst1]
        rw [hi2, hD.count_eq]
        exact posIn_lt_length hmem
  · obtain ⟨hfst, hrepr2⟩ := getFlattenedIndex_new hD hmem
    have hfst1 : (getFlattenedIndex b.flattener (cornerTriple c)).1.1
        = D.length := by
      rw [hfst]
    have hfst2 : (getFlattenedIndex b.flattener (cornerTriple c)).1.2 = true := by
      rw [hfst]
    have hcount2 : b2.flattener.count = D.length + 1 := by
      rw [hfl, hrepr2.count_eq]
      simp
    have hattr2 : ∃ vals, cornerAttribs b (c.1 - 1) (c.2.1 - 1) (c.2.2 - 1) = some vals
        ∧ b2.draw_mesh.attribs = b.draw_mesh.attribs ++ vals := by
      rcases hatt with ⟨vals, hv, _, ha⟩ | ⟨hfalse, _⟩
      · exact ⟨vals, hv, ha⟩
      · rw [hfst2] at hfalse
        exact absurd hfalse (by simp)
    obtain ⟨vals, hvals, hattr⟩ := hattr2
    obtain ⟨ps, tcs, ns, hp3, ht2, hn3, hdecomp, _, _⟩ := cornerAttribs_spec hvals
    refine ⟨⟨D ++ [cornerTriple c], by rw [hfl]; exact hrepr2⟩, ?_, ?_, ?_⟩
    · rw [hattr, hdecomp]
      simp only [List.length_append, hp3, ht2, hn3, hlen, hcount2]
      rw [hD.count_eq]
      ring
    · rw [hind]
      simp [hidx]
    · intro i hi
      rw [hind] at hi
      rw [hcount2]
      rcases List.mem_append.mp hi with hold | hnew2
      · have hb := hbnd i hold
        rw [hD.count_eq] at hb
        omega
      · have hi2 : i = D.length := by
          rw [List.mem_singleton.mp hnew2, hfst1]
        omega

theorem addTriangle_inv {b : DrawBatch} {c1 c2 c3 : Int × Int × Int}
    {b2 : DrawBatch} {n : Nat} (hinv : BatchInv b n)
    (h : addTriangle b c1 c2 c3 = some b2) : BatchInv b2 (n + 3) := by
  unfold addTriangle at h
  split at h
  · exact absurd h (by simp)
  · rename_i b1 h1
    split at h
    · exact absurd h (by simp)
    · rename_i bm h2
      have i1 := addTriangleCorner_inv hinv h1
      have i2 := addTriangleCorner_inv i1 h2
      have i3 := addTriangleCorner_inv i2 h
      have harith : n + 1 + 1 + 1 = n + 3 := by omega
      exact harith ▸ i3

theorem runBatch_inv (trs : List Tri) :
    ∀ b n b2, BatchInv b n → runBatch b trs = some b2 →
      BatchInv b2 (n + 3 * trs.length) := by
  induction trs with
  | nil =>
    intro b n b2 hinv h
    simp only [runBatch] at h
    injection h with h2
    rw [← h2]
    simpa using hinv
  | cons tr trs ih =>
    intro b n b2 hinv h
    simp only [runBatch] at h
    split at h
    · exact absurd h (by simp)
    · rename_i b1 h1
      have i1 := addTriangle_inv hinv h1
      have i2 := ih b1 (n + 3) b2 i1 h
      have harith : n + 3 + 3 * trs.length = n + 3 * (tr :: trs).length := by
        simp only [List.length_cons]
        ring
      exact harith ▸ i2

/-- C8: after any successful sequence of `AddTriangle` calls the attribute
buffer length is 8 times the flattener distinct-triple count, the index
list length is 3 times the number of triangles added, and every index is
below the attribute buffer length divided by 8; moreover for a newly
flattened corner whose texcoord index is -1 the two appended texcoord
floats are zero, and whose normal index is -1 the three appended normal
floats are zero. -/
theorem draw_batch_postconditions :
    (∀ (ps tcs ns : List ℚ) (trs : List Tri) (b2 : DrawBatch),
        runBatch (initBatch ps tcs ns) trs = some b2 →
        b2.draw_mesh.attribs.length = 8 * b2.flattener.count
        ∧ b2.draw_mesh.indices.length = 3 * trs.length
        ∧ ∀ i, i ∈ b2.draw_mesh.indices → i < b2.draw_mesh.attribs.length / 8)
    ∧ (∀ (b : DrawBatch) (c : Int × Int × Int) (b2 : DrawBatch),
        addTriangleCorner b c = some b2 →
        (getFlattenedIndex b.flattener (cornerTriple c)).1.2 = true →
        (cornerTriple c).tex = -1 →
        ∃ ps3 ns3, ps3.length = 3 ∧ ns3.length = 3
          ∧ b2.draw_mesh.attribs = b.draw_mesh.attribs ++ (ps3 ++ ([0, 0] ++ ns3)))
    ∧ (∀ (b : DrawBatch) (c : Int × Int × Int) (b2 : DrawBatch),
        addTriangleCorner b c = some b2 →
        (getFlattenedIndex b.flattener (cornerTriple c)).1.2 = true →
        (cornerTriple c).nrm = -1 →
        ∃ ps3 tcs2, ps3.length = 3 ∧ tcs2.length = 2
          ∧ b2.draw_mesh.attribs
              = b.draw_mesh.attribs ++ (ps3 ++ (tcs2 ++ [0, 0, 0]))) := by
  refine ⟨?_, ?_, ?_⟩
  · intro ps tcs ns trs b2 h
    have hinit : BatchInv (initBatch ps tcs ns) 0 := by
      refine ⟨⟨[], flatRepr_init⟩, rfl, rfl, ?_⟩
      intro i hi
      exact absurd hi (List.not_mem_nil i)
    have hrun := runBatch_inv trs _ 0 b2 hinit h
    obtain ⟨_, hlen, hidx, hbnd⟩ := hrun
    refine ⟨hlen, by rw [hidx]; omega, ?_⟩
    intro i hi
    have hb := hbnd i hi
    rw [hlen, Nat.mul_div_cancel_left _ (by norm_num : 0 < 8)]
    exact hb
  · intro b c b2 h htrue htex
    obtain ⟨_, _, hatt⟩ := addTriangleCorner_some h
    rcases hatt with ⟨vals, hvals, _, hattr⟩ | ⟨hfalse, _⟩
    · obtain ⟨ps3, tcs2, ns3, hp3, _, hn3, hdecomp, htzero, _⟩ :=
        cornerAttribs_spec hvals
      refine ⟨ps3, ns3, hp3, hn3, ?_⟩
      rw [hattr, hdecomp, htzero htex]
    · rw [htrue] at hfalse
      exact absurd hfalse (by simp)
  · intro b c b2 h htrue hnrm
    obtain ⟨_, _, hatt⟩ := addTriangleCorner_some h
    rcases hatt with ⟨vals, hvals, _, hattr⟩ | ⟨hfalse, _⟩
    · obtain ⟨ps3, tcs2, ns3, hp3, ht2, _, hdecomp, _, hnzero⟩ :=
        cornerAttribs_spec hvals
      refine ⟨ps3, tcs2, hp3, ht2, ?_⟩
      rw [hattr, hdecomp, hnzero hnrm]
    · rw [htrue] at hfalse
      exact absurd hfalse (by simp)

/-- Concrete batch reached by adding one triangle whose three corners are
all (1, 1, 1) to a batch over three source buffers of zeros. -/
def batchW : DrawBatch :=
  { positions := [0, 0, 0], texcoords := [0, 0], normals := [0, 0, 0],
    draw_mesh := { attribs := [0, 0, 0, 0, 0, 0, 0, 0], indices := [0, 0, 0] },
    flattener :=
      { count := 1,
        table := fun p => if p = 0 then TableEntry.cached 0 0 0 else TableEntry.unknown,
        map := [] } }

/-- Witness for C8 on a single triangle with three identical corners. -/
theorem draw_batch_postconditions_witness :
    runBatch (initBatch [0, 0, 0] [0, 0] [0, 0, 0])
        [((1, 1, 1), (1, 1, 1), (1, 1, 1))] = some batchW
    ∧ batchW.draw_mesh.attribs.length = 8 * batchW.flattener.count
    ∧ batchW.draw_mesh.indices.length = 3 := by
  have h : runBatch (initBatch [0, 0, 0] [0, 0] [0, 0, 0])
      [((1, 1, 1), (1, 1, 1), (1, 1, 1))] = some batchW := rfl
  exact ⟨h, (draw_batch_postconditions.1 _ _ _ _ _ h).1,
    (draw_batch_postconditions.1 _ _ _ _ _ h).2.1⟩

end WL
